import Mathlib

/-!
Verification of the YSRN core (decomposition engine, gated retriever,
retrieval pipeline) via a shallow embedding of the Python source into Lean.

Floating-point arithmetic (numpy float64) is modelled by the real numbers;
numpy arrays of a fixed dimension `d` are modelled as functions `Fin d → ℝ`,
lists of candidates as Lean lists.  `numpy.mean` over a possibly empty array
is modelled as an `Option ℝ` (an empty array yields NaN, modelled as `none`).
-/

namespace YSRN

/-- The additive epsilon guard `1e-8` used by every division in the engine
(`ysrn_engine.py`, `gated_retrieval.py`). -/
def eps : ℝ := 1e-8

/-- Dot product: `np.dot` of two vectors of dimension `d`. -/
def dot {d : ℕ} (x y : Fin d → ℝ) : ℝ := ∑ i, x i * y i

/-- Euclidean norm: `np.linalg.norm` of a vector: the Euclidean norm. -/
noncomputable def norm2 {d : ℕ} (x : Fin d → ℝ) : ℝ := Real.sqrt (dot x x)

/-- Normalization `v / (np.linalg.norm(v) + 1e-8)` — the epsilon-guarded normalization used
at the top of `YSRNEngine.decompose` (`ysrn_engine.py` lines 62-63). -/
noncomputable def normalizeV {d : ℕ} (x : Fin d → ℝ) : Fin d → ℝ :=
  fun i => x i / (norm2 x + eps)

/-- Vector `Y`: the normalized context embedding (`ysrn_engine.py` line 62). -/
noncomputable def Yvec {d : ℕ} (x : Fin d → ℝ) : Fin d → ℝ := normalizeV x

/-- Vector `q`: the normalized query embedding (`ysrn_engine.py` line 63). -/
noncomputable def qvec {d : ℕ} (y : Fin d → ℝ) : Fin d → ℝ := normalizeV y

/-- Coefficient `relevance_coeff = np.dot(Y, q)` (`ysrn_engine.py` line 67). -/
noncomputable def relevance_coeff {d : ℕ} (x y : Fin d → ℝ) : ℝ :=
  dot (Yvec x) (qvec y)

/-- Projection `R_init = relevance_coeff * q` (`ysrn_engine.py` line 68). -/
noncomputable def R_init {d : ℕ} (x y : Fin d → ℝ) : Fin d → ℝ :=
  fun i => relevance_coeff x y * qvec y i

/-- Residual `residual = Y - R_init` (`ysrn_engine.py` line 71). -/
noncomputable def residual {d : ℕ} (x y : Fin d → ℝ) : Fin d → ℝ :=
  fun i => Yvec x i - R_init x y i

/-- The single singular value of the `d × 1` residual column.
`np.linalg.svd(residual.reshape(-1,1), full_matrices=False)` on a column
matrix `v` returns `U` of shape `d×1`, `s = [‖v‖]`, `Vt` of shape `1×1`
(with `s[0] * U[:,0] * Vt[0,:] = v` exactly); the `except` fallback
(`ysrn_engine.py` line 82) also sets `s = [np.linalg.norm(residual)]`.
Both branches therefore yield this same singular value. -/
noncomputable def s0 {d : ℕ} (x y : Fin d → ℝ) : ℝ := norm2 (residual x y)

/-- Energy `total_energy = np.sum(s ** 2)` (`ysrn_engine.py` line 85): the residual
spectrum has the single value `s0`. -/
noncomputable def total_energy {d : ℕ} (x y : Fin d → ℝ) : ℝ := s0 x y ^ 2

/-- Quantity `cumulative_energy = np.cumsum(s ** 2) / (total_energy + 1e-8)`
(`ysrn_engine.py` line 86), at its single index. -/
noncomputable def cumEnergy {d : ℕ} (x y : Fin d → ℝ) : ℝ :=
  s0 x y ^ 2 / (total_energy x y + eps)

/-- Whether the single spectral component is classified as noise:
`cumulative_energy > (1 - self.noise_threshold)` (`ysrn_engine.py` line 89). -/
noncomputable def isNoiseComponent {d : ℕ} (t : ℝ) (x y : Fin d → ℝ) : Prop :=
  cumEnergy x y > 1 - t

noncomputable instance {d : ℕ} (t : ℝ) (x y : Fin d → ℝ) :
    Decidable (isNoiseComponent t x y) :=
  inferInstanceAs (Decidable (_ > _))

/-- Vector `N`: sum over noise indices of `s[i] * U[:,i] * Vt[i,:]`
(`ysrn_engine.py` lines 93-99).  For the `d × 1` residual column the single
reconstructed component is exactly `residual`, so `N` is the whole residual
when index 0 is noise-classified and the zero vector otherwise. -/
noncomputable def Nvec {d : ℕ} (t : ℝ) (x y : Fin d → ℝ) : Fin d → ℝ :=
  if isNoiseComponent t x y then residual x y else fun _ => 0

/-- Vector `S = residual - N` (`ysrn_engine.py` line 102). -/
noncomputable def Svec {d : ℕ} (t : ℝ) (x y : Fin d → ℝ) : Fin d → ℝ :=
  fun i => residual x y i - Nvec t x y i

/-- Vector `R`: `self.W_relevance @ R_init` when a learned projection is configured,
else `R_init` (`ysrn_engine.py` lines 105-108).  Throughout the repository
`W_relevance` is `None`: it is initialized to `None` in `__init__` and
`train_projections` is a no-op (`pass`), so `R = R_init` always. -/
noncomputable def Rvec {d : ℕ} (x y : Fin d → ℝ) : Fin d → ℝ := R_init x y

/-- Denominator `total_norm = R_norm + S_norm + N_norm + 1e-8` (`ysrn_engine.py` l. 116). -/
noncomputable def total_norm {d : ℕ} (t : ℝ) (x y : Fin d → ℝ) : ℝ :=
  norm2 (Rvec x y) + norm2 (Svec t x y) + norm2 (Nvec t x y) + eps

/-- How many spectral components were attributed to noise
(`len(noise_indices)`, `ysrn_engine.py` line 90): 0 or 1 here. -/
noncomputable def noiseCount {d : ℕ} (t : ℝ) (x y : Fin d → ℝ) : ℕ :=
  if isNoiseComponent t x y then 1 else 0

/-- The result record of `YSRNEngine.decompose` (`decomposition.py` lines
7-24).  The `np.ndarray` fields are vectors of dimension `d`; the Python
float fields are reals, the component counts naturals. -/
structure DecompositionResult (d : ℕ) where
  Y : Fin d → ℝ
  R : Fin d → ℝ
  S : Fin d → ℝ
  N : Fin d → ℝ
  relevance_ratio : ℝ
  superfluous_ratio : ℝ
  noise_ratio : ℝ
  signal_quality : ℝ
  confidence : ℝ
  r_components : ℕ
  s_components : ℕ
  n_components : ℕ

/-- Function `YSRNEngine.decompose` (`ysrn_engine.py` lines 49-136), for an engine
with noise threshold `t` (default `0.1`) and `W_relevance = None` (the only
value it ever has in the repository).  `s_components` is
`max(0, len(s) - len(noise_indices) - 1)` with `len(s) = 1`, which is `0`
for both values of `noiseCount`; natural subtraction matches the `max(0, ·)`
truncation. -/
noncomputable def decompose {d : ℕ} (t : ℝ) (x y : Fin d → ℝ) :
    DecompositionResult d :=
  { Y := Yvec x
    R := Rvec x y
    S := Svec t x y
    N := Nvec t x y
    relevance_ratio := norm2 (Rvec x y) / total_norm t x y
    superfluous_ratio := norm2 (Svec t x y) / total_norm t x y
    noise_ratio := norm2 (Nvec t x y) / total_norm t x y
    signal_quality :=
      norm2 (Rvec x y) / (norm2 (Svec t x y) + norm2 (Nvec t x y) + eps)
    confidence := |relevance_coeff x y|
    r_components := 1
    s_components := 1 - noiseCount t x y - 1
    n_components := noiseCount t x y }

/-- The default noise threshold of `YSRNEngine.__init__`. -/
def defaultNoiseThreshold : ℝ := 0.1

/-! ### Basic facts about the vector operations -/

theorem eps_pos : (0 : ℝ) < eps := by norm_num [eps]

theorem dot_self_nonneg {d : ℕ} (x : Fin d → ℝ) : 0 ≤ dot x x :=
  Finset.sum_nonneg fun i _ => mul_self_nonneg (x i)

theorem norm2_nonneg {d : ℕ} (x : Fin d → ℝ) : 0 ≤ norm2 x :=
  Real.sqrt_nonneg _

theorem sq_norm2 {d : ℕ} (x : Fin d → ℝ) : norm2 x ^ 2 = dot x x :=
  Real.sq_sqrt (dot_self_nonneg x)

/-- Cauchy–Schwarz for the `dot` of the embedding. -/
theorem abs_dot_le {d : ℕ} (x y : Fin d → ℝ) :
    |dot x y| ≤ norm2 x * norm2 y := by
  have hcs : (dot x y) ^ 2 ≤ dot x x * dot y y := by
    have := Finset.sum_mul_sq_le_sq_mul_sq Finset.univ x y
    simpa [dot, sq] using this
  have h1 : |dot x y| = Real.sqrt ((dot x y) ^ 2) :=
    (Real.sqrt_sq_eq_abs _).symm
  rw [h1, norm2, norm2, ← Real.sqrt_mul (dot_self_nonneg x)]
  exact Real.sqrt_le_sqrt hcs

theorem dot_le_norm_mul_norm {d : ℕ} (x y : Fin d → ℝ) :
    dot x y ≤ norm2 x * norm2 y :=
  (le_abs_self _).trans (abs_dot_le x y)

theorem norm2_smul {d : ℕ} (c : ℝ) (x : Fin d → ℝ) :
    norm2 (fun i => c * x i) = |c| * norm2 x := by
  have : dot (fun i => c * x i) (fun i => c * x i) = c ^ 2 * dot x x := by
    simp [dot, Finset.mul_sum]; congr 1; funext i; ring
  rw [norm2, this, Real.sqrt_mul (sq_nonneg c), Real.sqrt_sq_eq_abs, norm2]

/-- Triangle inequality for the Euclidean norm of pointwise sums. -/
theorem norm2_add_le {d : ℕ} (x y : Fin d → ℝ) :
    norm2 (fun i => x i + y i) ≤ norm2 x + norm2 y := by
  have hexp : dot (fun i => x i + y i) (fun i => x i + y i)
      = dot x x + 2 * dot x y + dot y y := by
    simp only [dot, ← Finset.sum_add_distrib, Finset.mul_sum]
    congr 1; funext i; ring
  have hbound : dot (fun i => x i + y i) (fun i => x i + y i)
      ≤ (norm2 x + norm2 y) ^ 2 := by
    rw [hexp]
    have h1 : dot x y ≤ norm2 x * norm2 y := dot_le_norm_mul_norm x y
    have h2 : dot x x = norm2 x ^ 2 := (sq_norm2 x).symm
    have h3 : dot y y = norm2 y ^ 2 := (sq_norm2 y).symm
    nlinarith
  calc norm2 (fun i => x i + y i)
      = Real.sqrt (dot (fun i => x i + y i) (fun i => x i + y i)) := rfl
    _ ≤ Real.sqrt ((norm2 x + norm2 y) ^ 2) := Real.sqrt_le_sqrt hbound
    _ = |norm2 x + norm2 y| := Real.sqrt_sq_eq_abs _
    _ = norm2 x + norm2 y :=
        abs_of_nonneg (add_nonneg (norm2_nonneg x) (norm2_nonneg y))

theorem norm2_normalizeV {d : ℕ} (x : Fin d → ℝ) :
    norm2 (normalizeV x) = norm2 x / (norm2 x + eps) := by
  have hpos : 0 < norm2 x + eps :=
    add_pos_of_nonneg_of_pos (norm2_nonneg x) eps_pos
  have : normalizeV x = fun i => (norm2 x + eps)⁻¹ * x i := by
    funext i; simp [normalizeV, div_eq_inv_mul]
  rw [this, norm2_smul, abs_of_pos (inv_pos.mpr hpos), inv_mul_eq_div]

theorem norm2_normalizeV_le_one {d : ℕ} (x : Fin d → ℝ) :
    norm2 (normalizeV x) ≤ 1 := by
  rw [norm2_normalizeV]
  have hpos : 0 < norm2 x + eps :=
    add_pos_of_nonneg_of_pos (norm2_nonneg x) eps_pos
  exact (div_le_one hpos).mpr (le_add_of_nonneg_right eps_pos.le)

/-- The exact additive identity behind the decomposition: with
`W_relevance = None`, `R + S + N = R_init + (residual - N) + N
= R_init + (Y - R_init) = Y` pointwise. -/
theorem add_RSN {d : ℕ} (t : ℝ) (x y : Fin d → ℝ) (i : Fin d) :
    Rvec x y i + Svec t x y i + Nvec t x y i = Yvec x i := by
  simp only [Rvec, Svec, residual]
  ring

/-- The norm of `Y` is a lower bound for the sum of the three component norms. -/
theorem normY_le_sum_norms {d : ℕ} (t : ℝ) (x y : Fin d → ℝ) :
    norm2 (Yvec x) ≤
      norm2 (Rvec x y) + norm2 (Svec t x y) + norm2 (Nvec t x y) := by
  have hY : Yvec x = fun i => Rvec x y i + (Svec t x y i + Nvec t x y i) := by
    funext i
    rw [← add_RSN t x y i]; ring
  calc norm2 (Yvec x)
      = norm2 (fun i => Rvec x y i + (Svec t x y i + Nvec t x y i)) := by
        rw [hY]
    _ ≤ norm2 (Rvec x y) + norm2 (fun i => Svec t x y i + Nvec t x y i) :=
        norm2_add_le _ _
    _ ≤ norm2 (Rvec x y) + (norm2 (Svec t x y) + norm2 (Nvec t x y)) := by
        have := norm2_add_le (Svec t x y) (Nvec t x y)
        linarith
    _ = norm2 (Rvec x y) + norm2 (Svec t x y) + norm2 (Nvec t x y) := by ring

/-- C6: for every pair of context and query embedding vectors of equal
dimension (including zero vectors and non-unit vectors), the `confidence`
field of the `DecompositionResult` returned by `decompose` lies in `[0, 1]`. -/
theorem decompose_confidence_mem_unit_interval {d : ℕ} (t : ℝ)
    (x y : Fin d → ℝ) :
    0 ≤ (decompose t x y).confidence ∧ (decompose t x y).confidence ≤ 1 := by
  refine ⟨abs_nonneg _, ?_⟩
  show |relevance_coeff x y| ≤ 1
  calc |relevance_coeff x y| = |dot (normalizeV x) (normalizeV y)| := rfl
    _ ≤ norm2 (normalizeV x) * norm2 (normalizeV y) := abs_dot_le _ _
    _ ≤ 1 * 1 := by
        apply mul_le_mul (norm2_normalizeV_le_one x) (norm2_normalizeV_le_one y)
          (norm2_nonneg _) zero_le_one
    _ = 1 := mul_one 1

/-- C8: when no learned relevance-refinement projection is configured
(`W_relevance is None`, which is the case throughout the repository), the
vectors returned by `decompose` satisfy the exact additive identity
`R + S + N = Y` in every coordinate, because `R = R_init`,
`S = residual - N` and `residual = Y - R_init`. -/
theorem decompose_additive_identity {d : ℕ} (t : ℝ) (x y : Fin d → ℝ)
    (i : Fin d) :
    (decompose t x y).R i + (decompose t x y).S i + (decompose t x y).N i
      = (decompose t x y).Y i := by
  show Rvec x y i + Svec t x y i + Nvec t x y i = Yvec x i
  exact add_RSN t x y i

/-- C10: `decompose` is total over its numeric inputs — it is a total
function on arbitrary real vectors of any dimension (including the all-zero
vector), every epsilon-guarded denominator it divides by is strictly
positive (the two normalization denominators, the cumulative-energy
denominator, the ratio denominator `total_norm`, and the signal-quality
denominator), and the singular value used for the spectral split — in the
`except` fallback exactly as in the main SVD branch — is the residual's
norm. -/
theorem decompose_total_eps_guards {d : ℕ} (t : ℝ) (x y : Fin d → ℝ) :
    0 < norm2 x + eps ∧
    0 < norm2 y + eps ∧
    0 < total_energy x y + eps ∧
    0 < total_norm t x y ∧
    0 < norm2 (Svec t x y) + norm2 (Nvec t x y) + eps ∧
    s0 x y = norm2 (residual x y) := by
  refine ⟨?_, ?_, ?_, ?_, ?_, rfl⟩
  · exact add_pos_of_nonneg_of_pos (norm2_nonneg x) eps_pos
  · exact add_pos_of_nonneg_of_pos (norm2_nonneg y) eps_pos
  · exact add_pos_of_nonneg_of_pos (sq_nonneg _) eps_pos
  · have h1 := norm2_nonneg (Rvec x y)
    have h2 := norm2_nonneg (Svec t x y)
    have h3 := norm2_nonneg (Nvec t x y)
    have := eps_pos
    unfold total_norm
    linarith
  · have h2 := norm2_nonneg (Svec t x y)
    have h3 := norm2_nonneg (Nvec t x y)
    have := eps_pos
    linarith

theorem norm2_zero_fun {d : ℕ} : norm2 (fun _ : Fin d => (0 : ℝ)) = 0 := by
  simp [norm2, dot]

/-- C9: the spectral split is degenerate for a single residual vector —
with noise threshold `t ∈ (0,1)`, whenever the residual's squared norm
exceeds `((1 - t)/t) * 1e-8`, the single singular component is classified
as noise, so `N` equals the entire residual, `S` is the zero vector, and
`superfluous_ratio` equals `0`. -/
theorem spectral_split_degenerate {d : ℕ} (t : ℝ) (x y : Fin d → ℝ)
    (ht0 : 0 < t) (ht1 : t < 1)
    (h : dot (residual x y) (residual x y) > ((1 - t) / t) * eps) :
    (∀ i, (decompose t x y).N i = residual x y i) ∧
    (∀ i, (decompose t x y).S i = 0) ∧
    (decompose t x y).superfluous_ratio = 0 := by
  set E : ℝ := dot (residual x y) (residual x y) with hE
  have hE0 : 0 ≤ E := dot_self_nonneg _
  have hEeps : 0 < E + eps := add_pos_of_nonneg_of_pos hE0 eps_pos
  have htE : (1 - t) * eps < t * E := by
    have hmul := mul_lt_mul_of_pos_left h ht0
    have hcancel : t * (((1 - t) / t) * eps) = (1 - t) * eps := by
      field_simp
    linarith [hmul, hcancel.symm.le, hcancel.le]
  have hcum : cumEnergy x y = E / (E + eps) := by
    have hs : s0 x y ^ 2 = E := by rw [s0, sq_norm2, hE]
    rw [cumEnergy, total_energy, hs]
  have hnoise : isNoiseComponent t x y := by
    show cumEnergy x y > 1 - t
    rw [hcum]
    rw [gt_iff_lt, lt_div_iff hEeps]
    nlinarith
  have hN : ∀ i, Nvec t x y i = residual x y i := by
    intro i
    rw [Nvec, if_pos hnoise]
  have hS : ∀ i, Svec t x y i = 0 := by
    intro i
    rw [Svec, hN i, sub_self]
  refine ⟨hN, hS, ?_⟩
  show norm2 (Svec t x y) / total_norm t x y = 0
  have hSfun : Svec t x y = fun _ => (0 : ℝ) := funext hS
  rw [hSfun, norm2_zero_fun, zero_div]

/-- Evaluation of the residual's squared norm for the witness input
`x = [0,1]`, `y = [1,0]`: here `Y = [0, 1/(1+ε)]`, `q = [1/(1+ε), 0]`,
the relevance coefficient is `0`, so the residual is all of `Y` and its
squared norm `(1/(1+ε))²` far exceeds `9e-8`. -/
theorem residual_sq_eval_01_10 :
    dot (residual (![0, 1] : Fin 2 → ℝ) ![1, 0])
        (residual (![0, 1] : Fin 2 → ℝ) ![1, 0])
      > ((1 - 0.1) / 0.1) * eps := by
  have h1 : norm2 (![0, 1] : Fin 2 → ℝ) = 1 := by
    have : dot (![0, 1] : Fin 2 → ℝ) ![0, 1] = 1 := by
      simp [dot, Fin.sum_univ_two]
    rw [norm2, this, Real.sqrt_one]
  have h2 : norm2 (![1, 0] : Fin 2 → ℝ) = 1 := by
    have : dot (![1, 0] : Fin 2 → ℝ) ![1, 0] = 1 := by
      simp [dot, Fin.sum_univ_two]
    rw [norm2, this, Real.sqrt_one]
  have hY : Yvec (![0, 1] : Fin 2 → ℝ) = ![0, 1 / (1 + eps)] := by
    funext i
    fin_cases i <;> simp [Yvec, normalizeV, h1]
  have hq : qvec (![1, 0] : Fin 2 → ℝ) = ![1 / (1 + eps), 0] := by
    funext i
    fin_cases i <;> simp [qvec, normalizeV, h2]
  have hc : relevance_coeff (![0, 1] : Fin 2 → ℝ) ![1, 0] = 0 := by
    rw [relevance_coeff]
    show dot (Yvec ![0, 1]) (qvec ![1, 0]) = 0
    rw [hY, hq]
    simp [dot, Fin.sum_univ_two]
  have hr : residual (![0, 1] : Fin 2 → ℝ) ![1, 0] = ![0, 1 / (1 + eps)] := by
    funext i
    rw [residual, R_init, hc, hY]
    fin_cases i <;> simp
  rw [hr]
  simp only [dot, Fin.sum_univ_two, Matrix.cons_val_zero, Matrix.cons_val_one,
    Matrix.head_cons]
  rw [eps]
  norm_num

/-- Witness for C9 theorem `spectral_split_degenerate` at `t = 0.1`, `x = [0,1]`,
`y = [1,0]`. -/
theorem spectral_split_degenerate_witness :
    (0 < (0.1 : ℝ)) ∧ (0.1 : ℝ) < 1 ∧
    (dot (residual (![0, 1] : Fin 2 → ℝ) ![1, 0])
        (residual (![0, 1] : Fin 2 → ℝ) ![1, 0])
      > ((1 - 0.1) / 0.1) * eps) ∧
    ((∀ i, (decompose 0.1 (![0, 1] : Fin 2 → ℝ) ![1, 0]).N i
        = residual (![0, 1] : Fin 2 → ℝ) ![1, 0] i) ∧
     (∀ i, (decompose 0.1 (![0, 1] : Fin 2 → ℝ) ![1, 0]).S i = 0) ∧
     (decompose 0.1 (![0, 1] : Fin 2 → ℝ) ![1, 0]).superfluous_ratio = 0) :=
  ⟨by norm_num, by norm_num, residual_sq_eval_01_10,
    spectral_split_degenerate 0.1 (![0, 1] : Fin 2 → ℝ) ![1, 0]
      (by norm_num) (by norm_num) residual_sq_eval_01_10⟩

/-! ### Ratio closure (C1) -/

theorem norm2_singleton_one : norm2 (![1] : Fin 1 → ℝ) = 1 := by
  have : dot (![1] : Fin 1 → ℝ) ![1] = 1 := by
    simp [dot, Fin.sum_univ_one]
  rw [norm2, this, Real.sqrt_one]

/-- Full evaluation of `decompose` at the zero context vector: every
component vector is zero, every norm is zero, so every ratio is
`0 / (0 + ε) = 0`. -/
theorem decompose_zero_context_ratios :
    (decompose defaultNoiseThreshold (![0] : Fin 1 → ℝ) ![1]).relevance_ratio
      = 0 ∧
    (decompose defaultNoiseThreshold (![0] : Fin 1 → ℝ) ![1]).superfluous_ratio
      = 0 ∧
    (decompose defaultNoiseThreshold (![0] : Fin 1 → ℝ) ![1]).noise_ratio
      = 0 := by
  have hY : Yvec (![0] : Fin 1 → ℝ) = fun _ => (0 : ℝ) := by
    funext i
    fin_cases i <;> simp [Yvec, normalizeV]
  have hc : relevance_coeff (![0] : Fin 1 → ℝ) ![1] = 0 := by
    rw [relevance_coeff]
    show dot (Yvec ![0]) (qvec ![1]) = 0
    rw [hY]
    simp [dot]
  have hR : Rvec (![0] : Fin 1 → ℝ) ![1] = fun _ => (0 : ℝ) := by
    funext i
    rw [Rvec, R_init, hc, zero_mul]
  have hres : residual (![0] : Fin 1 → ℝ) ![1] = fun _ => (0 : ℝ) := by
    funext i
    rw [residual, R_init, hc, zero_mul, hY, sub_zero]
  have hN : Nvec defaultNoiseThreshold (![0] : Fin 1 → ℝ) ![1]
      = fun _ => (0 : ℝ) := by
    rw [Nvec]
    split
    · exact hres
    · rfl
  have hS : Svec defaultNoiseThreshold (![0] : Fin 1 → ℝ) ![1]
      = fun _ => (0 : ℝ) := by
    funext i
    rw [Svec, hres, hN, sub_self]
  refine ⟨?_, ?_, ?_⟩
  · show norm2 (Rvec (![0] : Fin 1 → ℝ) ![1])
      / total_norm defaultNoiseThreshold (![0] : Fin 1 → ℝ) ![1] = 0
    rw [hR, norm2_zero_fun, zero_div]
  · show norm2 (Svec defaultNoiseThreshold (![0] : Fin 1 → ℝ) ![1])
      / total_norm defaultNoiseThreshold (![0] : Fin 1 → ℝ) ![1] = 0
    rw [hS, norm2_zero_fun, zero_div]
  · show norm2 (Nvec defaultNoiseThreshold (![0] : Fin 1 → ℝ) ![1])
      / total_norm defaultNoiseThreshold (![0] : Fin 1 → ℝ) ![1] = 0
    rw [hN, norm2_zero_fun, zero_div]

/-- C1 counterexample: at the zero context embedding `[0]` against query
`[1]` (with the default noise threshold), the three ratios returned by
`decompose` sum to `0`, which is not within `1e-6` of `1.0`. -/
theorem ratio_closure_fails_zero_context :
    (decompose defaultNoiseThreshold (![0] : Fin 1 → ℝ) ![1]).relevance_ratio
      + (decompose defaultNoiseThreshold
          (![0] : Fin 1 → ℝ) ![1]).superfluous_ratio
      + (decompose defaultNoiseThreshold (![0] : Fin 1 → ℝ) ![1]).noise_ratio
      = 0 ∧
    ¬ (|(decompose defaultNoiseThreshold
            (![0] : Fin 1 → ℝ) ![1]).relevance_ratio
        + (decompose defaultNoiseThreshold
            (![0] : Fin 1 → ℝ) ![1]).superfluous_ratio
        + (decompose defaultNoiseThreshold
            (![0] : Fin 1 → ℝ) ![1]).noise_ratio - 1| ≤ 1e-6) := by
  obtain ⟨h1, h2, h3⟩ := decompose_zero_context_ratios
  rw [h1, h2, h3]
  norm_num

/-- C1 amended: for every pair of equal-dimension embeddings, each of the
three ratios returned by `decompose` is non-negative and their sum is at
most `1` (in particular it never exceeds `1 + 1e-6`); and provided the
context embedding's norm is at least `1e-9` (which excludes the zero
context vector of the counterexample), the sum is within `1e-6` of `1.0`. -/
theorem ratio_closure_amended {d : ℕ} (t : ℝ) (x y : Fin d → ℝ) :
    0 ≤ (decompose t x y).relevance_ratio ∧
    0 ≤ (decompose t x y).superfluous_ratio ∧
    0 ≤ (decompose t x y).noise_ratio ∧
    (decompose t x y).relevance_ratio + (decompose t x y).superfluous_ratio
      + (decompose t x y).noise_ratio ≤ 1 ∧
    (1e-9 ≤ norm2 x →
      |(decompose t x y).relevance_ratio + (decompose t x y).superfluous_ratio
        + (decompose t x y).noise_ratio - 1| ≤ 1e-6) := by
  have ha : 0 ≤ norm2 (Rvec x y) := norm2_nonneg _
  have hb : 0 ≤ norm2 (Svec t x y) := norm2_nonneg _
  have hc : 0 ≤ norm2 (Nvec t x y) := norm2_nonneg _
  have htot : 0 < total_norm t x y := by
    rw [total_norm]
    linarith [eps_pos]
  have hsum : (decompose t x y).relevance_ratio
      + (decompose t x y).superfluous_ratio + (decompose t x y).noise_ratio
      = (norm2 (Rvec x y) + norm2 (Svec t x y) + norm2 (Nvec t x y))
        / total_norm t x y := by
    show norm2 (Rvec x y) / total_norm t x y
        + norm2 (Svec t x y) / total_norm t x y
        + norm2 (Nvec t x y) / total_norm t x y = _
    rw [div_add_div_same, div_add_div_same]
  refine ⟨div_nonneg ha htot.le, div_nonneg hb htot.le,
    div_nonneg hc htot.le, ?_, ?_⟩
  · rw [hsum]
    apply div_le_one_of_le
    · rw [total_norm]
      linarith [eps_pos]
    · exact htot.le
  · intro hx
    rw [hsum]
    set T : ℝ := norm2 (Rvec x y) + norm2 (Svec t x y) + norm2 (Nvec t x y)
      with hT
    have hTtot : total_norm t x y = T + eps := by rw [total_norm, hT]
    have hTpos : 0 < T + eps := by rw [← hTtot]; exact htot
    have hTY : norm2 (Yvec x) ≤ T := normY_le_sum_norms t x y
    have hYval : norm2 (Yvec x) = norm2 x / (norm2 x + eps) :=
      norm2_normalizeV x
    have hxpos : 0 < norm2 x + eps :=
      add_pos_of_nonneg_of_pos (norm2_nonneg x) eps_pos
    have hYlb : (1e-2 : ℝ) ≤ norm2 (Yvec x) := by
      rw [hYval, le_div_iff₀ hxpos]
      rw [eps] at *
      nlinarith [norm2_nonneg x]
    have hTlb : (1e-2 : ℝ) ≤ T := hYlb.trans hTY
    have hdiff : T / (T + eps) - 1 = -(eps / (T + eps)) := by
      field_simp
    rw [hTtot, hdiff, abs_neg,
      abs_of_nonneg (div_nonneg eps_pos.le hTpos.le), div_le_iff₀ hTpos]
    rw [eps] at *
    nlinarith

/-- Witness for the C1 amended theorem `ratio_closure_amended` at `x = y = [1]`. -/
theorem ratio_closure_amended_witness :
    (1e-9 : ℝ) ≤ norm2 (![1] : Fin 1 → ℝ) ∧
    |(decompose defaultNoiseThreshold
          (![1] : Fin 1 → ℝ) ![1]).relevance_ratio
      + (decompose defaultNoiseThreshold
          (![1] : Fin 1 → ℝ) ![1]).superfluous_ratio
      + (decompose defaultNoiseThreshold
          (![1] : Fin 1 → ℝ) ![1]).noise_ratio - 1| ≤ 1e-6 := by
  have hx : (1e-9 : ℝ) ≤ norm2 (![1] : Fin 1 → ℝ) := by
    rw [norm2_singleton_one]; norm_num
  exact ⟨hx,
    (ratio_closure_amended defaultNoiseThreshold
      (![1] : Fin 1 → ℝ) ![1]).2.2.2.2 hx⟩

/-! ### Data model of the retrieval side (`context.py`, `query.py`)

`metadata` and `created_at` carry no behaviour in the core and are omitted.
The three optional classification scores start unset (`None`). -/

structure ContextBlock (d : ℕ) where
  id : String
  content : String
  embedding : Option (Fin d → ℝ)
  relevance_score : Option ℝ := none
  superfluous_score : Option ℝ := none
  noise_score : Option ℝ := none

instance {d : ℕ} : Inhabited (ContextBlock d) :=
  ⟨{ id := "", content := "", embedding := none }⟩

structure Query (d : ℕ) where
  id : String
  text : String
  embedding : Option (Fin d → ℝ)

/-- Clipping `np.clip(x, lo, hi)` for `lo ≤ hi`. -/
def clip (lo hi x : ℝ) : ℝ := max lo (min hi x)

/-- Function `GatedContextRetriever._sigmoid` (`gated_retrieval.py` line 112):
`1 / (1 + np.exp(-np.clip(x, -500, 500)))`. -/
noncomputable def sigmoid (x : ℝ) : ℝ :=
  1 / (1 + Real.exp (-(clip (-500) 500 x)))

/-- Logits `gate_logits = np.dot(query, self.W_gate) + self.gate_bias`
(`gated_retrieval.py` line 57): `(q·W)_j = Σ_i q_i · W[i,j]`.  The gate
weight matrix and bias are created by `np.random.randn` / `np.full` in
`__init__`; they are modelled as explicit parameters. -/
noncomputable def gate_logits {d : ℕ} (W : Fin d → Fin d → ℝ)
    (b : Fin d → ℝ) (qv : Fin d → ℝ) : Fin d → ℝ :=
  fun j => (∑ i, qv i * W i j) + b j

/-- Gate `gate = self._sigmoid(gate_logits)` (`gated_retrieval.py` line 58). -/
noncomputable def gateVec {d : ℕ} (W : Fin d → Fin d → ℝ)
    (b : Fin d → ℝ) (qv : Fin d → ℝ) : Fin d → ℝ :=
  fun j => sigmoid (gate_logits W b qv j)

/-- The gate vector as a list (numpy 1-d array of length `d`). -/
noncomputable def gateList {d : ℕ} (W : Fin d → Fin d → ℝ)
    (b : Fin d → ℝ) (qv : Fin d → ℝ) : List ℝ :=
  List.ofFn (gateVec W b qv)

/-- Filter `valid_candidates = [c for c in candidates if c.embedding is not None]`
(`gated_retrieval.py` line 81). -/
def validCandidates {d : ℕ} (cands : List (ContextBlock d)) :
    List (ContextBlock d) :=
  cands.filter (fun c => c.embedding.isSome)

/-- Keys `keys = np.stack([c.embedding.to_numpy() for c in valid_candidates])`
(`gated_retrieval.py` line 85). -/
def keysOf {d : ℕ} (cands : List (ContextBlock d)) : List (Fin d → ℝ) :=
  (validCandidates cands).filterMap (·.embedding)

/-- Scores `relevance = np.dot(q_vec, keys.T)` (`gated_retrieval.py` line 92). -/
noncomputable def relevanceScores {d : ℕ} (qv : Fin d → ℝ)
    (cands : List (ContextBlock d)) : List ℝ :=
  (keysOf cands).map (fun k => dot qv k)

/-- Scalar `mean_gate = np.mean(gates[:len(relevance)]) if len(gates) > 0 else 0.5`
(`gated_retrieval.py` line 93): the mean of the gate vector truncated to
the first `n` entries, where `n` is the number of valid candidates. -/
noncomputable def meanGate (g : List ℝ) (n : ℕ) : ℝ :=
  if g.length = 0 then 0.5 else (g.take n).sum / ((g.take n).length : ℝ)

/-- Scores `final_scores = relevance * mean_gate` (`gated_retrieval.py` line 94). -/
noncomputable def finalScores {d : ℕ} (W : Fin d → Fin d → ℝ)
    (b : Fin d → ℝ) (qv : Fin d → ℝ) (cands : List (ContextBlock d)) :
    List ℝ :=
  (relevanceScores qv cands).map
    (fun r => r * meanGate (gateList W b qv) (relevanceScores qv cands).length)

/-- The ascending comparison used to model `np.argsort(final_scores)`:
index `i` precedes index `j` when its score is smaller, with ties broken
by the original position.  This totalized (stable) order is exactly what
numpy's default sort produces on arrays of at most 16 elements, where its
introsort is a plain insertion sort; on larger arrays numpy's quicksort
partitioning is unstable, only the value-ascending property is guaranteed,
and the tie order is implementation-defined. -/
def ascRel (s : List ℝ) (i j : ℕ) : Prop :=
  s.getD i 0 < s.getD j 0 ∨ (s.getD i 0 = s.getD j 0 ∧ i ≤ j)

noncomputable instance ascRelDecidable (s : List ℝ) :
    DecidableRel (ascRel s) := fun i j => by
  unfold ascRel
  infer_instance

instance ascRelTotal (s : List ℝ) : IsTotal ℕ (ascRel s) := by
  constructor
  intro i j
  rcases lt_trichotomy (s.getD i 0) (s.getD j 0) with h | h | h
  · exact Or.inl (Or.inl h)
  · rcases Nat.le_total i j with hij | hij
    · exact Or.inl (Or.inr ⟨h, hij⟩)
    · exact Or.inr (Or.inr ⟨h.symm, hij⟩)
  · exact Or.inr (Or.inl h)

instance ascRelTrans (s : List ℝ) : IsTrans ℕ (ascRel s) := by
  constructor
  intro i j k hij hjk
  rcases hij with h1 | ⟨h1, h1'⟩ <;> rcases hjk with h2 | ⟨h2, h2'⟩
  · exact Or.inl (h1.trans h2)
  · exact Or.inl (h2 ▸ h1)
  · exact Or.inl (h1 ▸ h2)
  · exact Or.inr ⟨h1.trans h2, h1'.trans h2'⟩

/-- Argsort `np.argsort(final_scores)`: the list of indices `0..n-1` sorted
in ascending order of score.  Modelled as the stable ascending sort, which
coincides with `np.argsort` (default `kind='quicksort'`) exactly when the
array has at most 16 elements (numpy then runs its stable insertion sort);
for larger arrays numpy's introsort agrees on the value order — a
permutation of `0..n-1` ascending in score — but not necessarily on the
order of tied indices, so conclusions about tie order are only drawn under
that size bound. -/
noncomputable def argsortAsc (s : List ℝ) : List ℕ :=
  List.insertionSort (ascRel s) (List.range s.length)

/-- Selection `sorted_indices = np.argsort(final_scores)[::-1][:top_k]`
(`gated_retrieval.py` line 97). -/
noncomputable def selectedIndices {d : ℕ} (W : Fin d → Fin d → ℝ)
    (b : Fin d → ℝ) (qv : Fin d → ℝ) (cands : List (ContextBlock d))
    (k : ℕ) : List ℕ :=
  ((argsortAsc (finalScores W b qv cands)).reverse).take k

/-- Function `GatedContextRetriever.retrieve` (`gated_retrieval.py` lines 68-105).
Returns the selected candidates, each with its `relevance_score` field set
to its final score (the Python mutates the candidate object in place; the
model returns the updated record).  `valid_candidates[idx]` is modelled
with `getD`; the selected indices are always in range. -/
noncomputable def retrieve {d : ℕ} (W : Fin d → Fin d → ℝ) (b : Fin d → ℝ)
    (q : Query d) (cands : List (ContextBlock d)) (top_k : ℕ) :
    List (ContextBlock d) :=
  match q.embedding with
  | none => []
  | some qv =>
    if cands.isEmpty then []
    else if (validCandidates cands).isEmpty then []
    else
      (selectedIndices W b qv cands top_k).map (fun i =>
        { (validCandidates cands).getD i default with
            relevance_score := some ((finalScores W b qv cands).getD i 0) })

/-- Function `YSRNEngine.classify_context` (`ysrn_engine.py` lines 147-163): raises
`ValueError` when either embedding is missing (before any numeric work),
otherwise decomposes and sets the three scores. -/
noncomputable def classify_context {d : ℕ} (t : ℝ) (ctx : ContextBlock d)
    (q : Query d) : Except String (ContextBlock d) :=
  match ctx.embedding, q.embedding with
  | some ce, some qe =>
    let result := decompose t ce qe
    .ok { ctx with
            relevance_score := some result.relevance_ratio,
            superfluous_score := some result.superfluous_ratio,
            noise_score := some result.noise_ratio }
  | _, _ => .error "Both context and query must have embeddings"

/-- Mean `numpy.mean` over a 1-d array: the empty array yields NaN (with a
RuntimeWarning), modelled as `none`. -/
noncomputable def npMean (l : List ℝ) : Option ℝ :=
  if l.isEmpty then none else some (l.sum / (l.length : ℝ))

/-- The aggregate statistics of `QueryHandler.submit_query`
(`query_handler.py` lines 73-76): `avg_relevance` and `avg_noise` are
`np.mean` over `[c.relevance_score or 0 ...]` / `[c.noise_score or 0 ...]`
of the final classified list. -/
noncomputable def decompositionStats {d : ℕ}
    (classified : List (ContextBlock d)) : Option ℝ × Option ℝ :=
  (npMean (classified.map (fun c => c.relevance_score.getD 0)),
   npMean (classified.map (fun c => c.noise_score.getD 0)))

/-- C5 (code bug): when the pipeline's final classified list is empty,
`QueryHandler.submit_query` computes `float(np.mean([]))` for both
aggregate statistics; `np.mean` of an empty array is NaN (undefined, here
`none`), not the `0.0` the specification prescribes. -/
theorem stats_empty_undefined {d : ℕ} :
    decompositionStats (d := d) [] = (none, none) := by
  simp [decompositionStats, npMean]

/-- C7: single-item classification fails with the missing-embedding error
if and only if the candidate's embedding or the query's embedding is
absent; the check happens before any numeric work, and when both
embeddings are present the call completes without that error. -/
theorem classify_error_iff_missing_embedding {d : ℕ} (t : ℝ)
    (ctx : ContextBlock d) (q : Query d) :
    (∃ msg, classify_context t ctx q = .error msg)
      ↔ (ctx.embedding = none ∨ q.embedding = none) := by
  obtain ⟨cid, ccont, cemb, cr, cs, cn⟩ := ctx
  obtain ⟨qid, qtext, qemb⟩ := q
  cases cemb <;> cases qemb <;> simp [classify_context]

/-- C4 amended: `classify_context` populates all three classification
scores whenever it succeeds (all-or-none holds after classification);
`retrieve`, by contrast, sets only the relevance score — see the
counterexample. -/
theorem classify_sets_all_scores {d : ℕ} (t : ℝ) (ctx : ContextBlock d)
    (q : Query d) :
    ((classify_context t ctx q).toOption.all fun c =>
        c.relevance_score.isSome && c.superfluous_score.isSome
          && c.noise_score.isSome) = true := by
  obtain ⟨cid, ccont, cemb, cr, cs, cn⟩ := ctx
  obtain ⟨qid, qtext, qemb⟩ := q
  cases cemb <;> cases qemb <;> simp [classify_context, Except.toOption]

/-! ### List lemmas for the retrieval theorems -/

theorem getD_map_lt {α β : Type _} (f : α → β) (l : List α) (i : ℕ)
    (hi : i < l.length) (d0 : β) (d1 : α) :
    (l.map f).getD i d0 = f (l.getD i d1) := by
  induction l generalizing i with
  | nil => simp at hi
  | cons a l ih =>
    cases i with
    | zero => simp
    | succ n =>
      simp only [List.map_cons, List.getD_cons_succ]
      exact ih n (by simpa using hi)

theorem valid_all_isSome {d : ℕ} (cands : List (ContextBlock d)) :
    ∀ c ∈ validCandidates cands, c.embedding.isSome := by
  intro c hc
  have := List.of_mem_filter hc
  simpa using this

theorem filterMap_embedding_length {d : ℕ} (l : List (ContextBlock d))
    (h : ∀ c ∈ l, c.embedding.isSome) :
    (l.filterMap (·.embedding)).length = l.length := by
  induction l with
  | nil => simp
  | cons a l ih =>
    obtain ⟨e, he⟩ :=
      Option.isSome_iff_exists.mp (h a (List.mem_cons_self a l))
    simp [List.filterMap_cons, he,
      ih (fun c hc => h c (List.mem_cons_of_mem a hc))]

theorem keysOf_length {d : ℕ} (cands : List (ContextBlock d)) :
    (keysOf cands).length = (validCandidates cands).length :=
  filterMap_embedding_length _ (valid_all_isSome cands)

theorem filterMap_embedding_getD {d : ℕ} (l : List (ContextBlock d))
    (h : ∀ c ∈ l, c.embedding.isSome) (i : ℕ) (hi : i < l.length) :
    (l.getD i default).embedding
      = some ((l.filterMap (·.embedding)).getD i (fun _ => 0)) := by
  induction l generalizing i with
  | nil => simp at hi
  | cons a l ih =>
    obtain ⟨e, he⟩ :=
      Option.isSome_iff_exists.mp (h a (List.mem_cons_self a l))
    cases i with
    | zero => simp [List.filterMap_cons, he]
    | succ n =>
      simp only [List.filterMap_cons, he, List.getD_cons_succ]
      exact ih (fun c hc => h c (List.mem_cons_of_mem a hc)) n
        (by simpa using hi)

theorem finalScores_length {d : ℕ} (W : Fin d → Fin d → ℝ) (b : Fin d → ℝ)
    (qv : Fin d → ℝ) (cands : List (ContextBlock d)) :
    (finalScores W b qv cands).length = (validCandidates cands).length := by
  rw [finalScores, List.length_map, relevanceScores, List.length_map,
    keysOf_length]

theorem selectedIndices_mem_lt {d : ℕ} (W : Fin d → Fin d → ℝ)
    (b : Fin d → ℝ) (qv : Fin d → ℝ) (cands : List (ContextBlock d))
    (k : ℕ) (i : ℕ) (hi : i ∈ selectedIndices W b qv cands k) :
    i < (validCandidates cands).length := by
  have h1 : i ∈ (argsortAsc (finalScores W b qv cands)).reverse :=
    List.mem_of_mem_take hi
  rw [List.mem_reverse] at h1
  have h2 : i ∈ List.range (finalScores W b qv cands).length :=
    (List.perm_insertionSort _ _).mem_iff.mp h1
  rw [List.mem_range, finalScores_length] at h2
  exact h2

/-- C2 amended: every candidate returned by `retrieve` carries as its final
score the raw (non-softmaxed) dot product of the query embedding with that
candidate's embedding, multiplied by one scalar shared by all candidates —
but that scalar is the mean of the gate vector *truncated to the number of
valid candidates* (`np.mean(gates[:len(relevance)])`), which equals the
mean of the entire gate vector only when there are at least as many
candidates as gate entries. -/
theorem retrieve_score_eq_dot_mul_truncated_gate_mean {d : ℕ}
    (W : Fin d → Fin d → ℝ) (b : Fin d → ℝ) (q : Query d)
    (cands : List (ContextBlock d)) (k : ℕ) (qv : Fin d → ℝ)
    (hq : q.embedding = some qv) (c : ContextBlock d)
    (hc : c ∈ retrieve W b q cands k) :
    ∃ e, c.embedding = some e ∧
      c.relevance_score
        = some (dot qv e
            * meanGate (gateList W b qv) (keysOf cands).length) := by
  obtain ⟨qid, qtext, qemb⟩ := q
  simp only at hq
  subst hq
  simp only [retrieve] at hc
  by_cases h1 : cands.isEmpty
  · rw [if_pos h1] at hc
    simp at hc
  rw [if_neg h1] at hc
  by_cases h2 : (validCandidates cands).isEmpty
  · rw [if_pos h2] at hc
    simp at hc
  rw [if_neg h2] at hc
  obtain ⟨i, hi, hci⟩ := List.mem_map.mp hc
  have hilt : i < (validCandidates cands).length :=
    selectedIndices_mem_lt W b qv cands k i hi
  refine ⟨(keysOf cands).getD i (fun _ => 0), ?_, ?_⟩
  · rw [← hci]
    show ((validCandidates cands).getD i default).embedding = _
    exact filterMap_embedding_getD _ (valid_all_isSome cands) i hilt
  · rw [← hci]
    show some ((finalScores W b qv cands).getD i 0) = _
    have hrel : (relevanceScores qv cands).length = (keysOf cands).length :=
      List.length_map _ _
    have hfi : (finalScores W b qv cands).getD i 0
        = (relevanceScores qv cands).getD i 0
          * meanGate (gateList W b qv) (keysOf cands).length := by
      rw [finalScores, hrel]
      exact getD_map_lt _ _ i
        (by rw [hrel, keysOf_length]; exact hilt) 0 0
    have hri : (relevanceScores qv cands).getD i 0
        = dot qv ((keysOf cands).getD i (fun _ => 0)) := by
      rw [relevanceScores]
      exact getD_map_lt _ _ i (by rw [keysOf_length]; exact hilt) 0 _
    rw [hfi, hri]

/-- C3 amended: given a query with an embedding and `topK = k` smaller than
the number of candidates with embeddings, `retrieve` returns exactly `k`
candidates, chosen by `k` distinct indices, sorted by final score in
non-increasing order — all of which hold for any correct argsort — but the
claimed earlier-first stable tie-breaking is false: reversing the
ascending argsort reverses the tie order, so when the score array is small
enough that numpy's default sort is its stable insertion sort (at most 16
elements), a candidate with a tied score appears *after* every tied
candidate that came later in the input; for larger arrays numpy's
quicksort leaves the tie order implementation-defined. -/
theorem retrieve_topk_sorted_desc {d : ℕ} (W : Fin d → Fin d → ℝ)
    (b : Fin d → ℝ) (q : Query d) (cands : List (ContextBlock d)) (k : ℕ)
    (qv : Fin d → ℝ) (hq : q.embedding = some qv)
    (hk : k < (keysOf cands).length) :
    (retrieve W b q cands k).length = k ∧
    (selectedIndices W b qv cands k).Nodup ∧
    (selectedIndices W b qv cands k).Sorted (fun i j =>
      (finalScores W b qv cands).getD j 0
        ≤ (finalScores W b qv cands).getD i 0) ∧
    ((finalScores W b qv cands).length ≤ 16 →
      (selectedIndices W b qv cands k).Sorted (fun i j =>
        (finalScores W b qv cands).getD j 0
            < (finalScores W b qv cands).getD i 0
          ∨ ((finalScores W b qv cands).getD j 0
              = (finalScores W b qv cands).getD i 0 ∧ j ≤ i))) ∧
    (retrieve W b q cands k).map (·.relevance_score)
      = (selectedIndices W b qv cands k).map
          (fun i => some ((finalScores W b qv cands).getD i 0)) := by
  obtain ⟨qid, qtext, qemb⟩ := q
  simp only at hq
  subst hq
  have hvlen : k < (validCandidates cands).length := by
    rwa [keysOf_length] at hk
  have hvne : ¬ (validCandidates cands).isEmpty := by
    rw [List.isEmpty_iff]
    intro h
    rw [h] at hvlen
    simp at hvlen
  have hcne : ¬ cands.isEmpty := by
    rw [List.isEmpty_iff]
    intro h
    rw [validCandidates, h] at hvlen
    simp at hvlen
  have hret : retrieve W b ⟨qid, qtext, some qv⟩ cands k
      = (selectedIndices W b qv cands k).map (fun i =>
          { (validCandidates cands).getD i default with
              relevance_score :=
                some ((finalScores W b qv cands).getD i 0) }) := by
    simp only [retrieve]
    rw [if_neg hcne, if_neg hvne]
  have hsortlen : (argsortAsc (finalScores W b qv cands)).length
      = (validCandidates cands).length := by
    rw [argsortAsc,
      (List.perm_insertionSort _ _).length_eq, List.length_range,
      finalScores_length]
  have hsellen : (selectedIndices W b qv cands k).length = k := by
    rw [selectedIndices, List.length_take, List.length_reverse, hsortlen]
    exact Nat.min_eq_left hvlen.le
  have hsorted : (argsortAsc (finalScores W b qv cands)).Sorted
      (ascRel (finalScores W b qv cands)) :=
    List.sorted_insertionSort _ _
  have hrev : (argsortAsc (finalScores W b qv cands)).reverse.Sorted
      (fun i j => ascRel (finalScores W b qv cands) j i) :=
    List.pairwise_reverse.mpr hsorted
  have htie : (selectedIndices W b qv cands k).Sorted (fun i j =>
      (finalScores W b qv cands).getD j 0
          < (finalScores W b qv cands).getD i 0
        ∨ ((finalScores W b qv cands).getD j 0
            = (finalScores W b qv cands).getD i 0 ∧ j ≤ i)) :=
    hrev.sublist (List.take_sublist _ _)
  refine ⟨?_, ?_, ?_, fun _ => htie, ?_⟩
  · rw [hret, List.length_map, hsellen]
  · have hnr : (argsortAsc (finalScores W b qv cands)).Nodup := by
      refine (List.perm_insertionSort (ascRel _) _).nodup_iff.mpr ?_
      exact List.nodup_range _
    exact ((List.nodup_reverse.mpr hnr).sublist (List.take_sublist _ _))
  · refine htie.imp ?_
    intro i j h
    rcases h with h | ⟨h, _⟩
    · exact h.le
    · exact h.le
  · rw [hret, List.map_map]
    rfl

/-! ### Concrete retrieval inputs for witnesses and counterexamples -/

def ctxA : ContextBlock 2 :=
  { id := "a", content := "c", embedding := some ![1, 0] }

def ctxB : ContextBlock 2 :=
  { id := "b", content := "c", embedding := some ![1, 0] }

def qEx : Query 2 := { id := "q", text := "t", embedding := some ![1, 0] }

/-- An all-zero gate weight matrix. -/
def W0 : Fin 2 → Fin 2 → ℝ := fun _ _ => 0

/-- An all-zero gate bias. -/
def b0 : Fin 2 → ℝ := fun _ => 0

/-- A gate bias with two distinct entries. -/
def bC2 : Fin 2 → ℝ := ![0, 1]

theorem sigmoid_zero : sigmoid 0 = 1 / 2 := by
  rw [sigmoid, clip]
  rw [min_eq_right (by norm_num : (0 : ℝ) ≤ 500)]
  rw [max_eq_right (by norm_num : (-500 : ℝ) ≤ 0)]
  rw [neg_zero, Real.exp_zero]
  norm_num

theorem sigmoid_one_ne_half : sigmoid 1 ≠ 1 / 2 := by
  rw [sigmoid, clip]
  rw [min_eq_right (by norm_num : (1 : ℝ) ≤ 500)]
  rw [max_eq_right (by norm_num : (-500 : ℝ) ≤ 1)]
  intro h
  have hpos : 0 < 1 + Real.exp (-1) := by positivity
  have h2 : 1 + Real.exp (-1) = 2 := by
    field_simp at h
    linarith
  have hlt : Real.exp (-1) < 1 := by
    calc Real.exp (-1) < Real.exp 0 := Real.exp_lt_exp.mpr (by norm_num)
      _ = 1 := Real.exp_zero
  linarith

theorem gateList_W0_b0 (qv : Fin 2 → ℝ) :
    gateList W0 b0 qv = [1 / 2, 1 / 2] := by
  have hg : gateVec W0 b0 qv = fun _ => (1 / 2 : ℝ) := by
    funext j
    rw [gateVec, gate_logits]
    simp [W0, b0, sigmoid_zero]
  rw [gateList, hg]
  simp [List.ofFn_succ]

theorem gateList_W0_bC2 (qv : Fin 2 → ℝ) :
    gateList W0 bC2 qv = [1 / 2, sigmoid 1] := by
  have hg : gateVec W0 bC2 qv = ![1 / 2, sigmoid 1] := by
    funext j
    rw [gateVec, gate_logits]
    fin_cases j <;> simp [W0, bC2, sigmoid_zero]
  rw [gateList, hg]
  simp [List.ofFn_succ]

theorem dot_e1_e1 : dot (![1, 0] : Fin 2 → ℝ) ![1, 0] = 1 := by
  simp [dot, Fin.sum_univ_two]

theorem valid_A : validCandidates [ctxA] = [ctxA] := by
  simp [validCandidates, ctxA]

theorem valid_AB : validCandidates [ctxA, ctxB] = [ctxA, ctxB] := by
  simp [validCandidates, ctxA, ctxB]

theorem keys_A : keysOf [ctxA] = [![1, 0]] := by
  rw [keysOf, valid_A]
  simp [ctxA]

theorem keys_AB : keysOf [ctxA, ctxB] = [![1, 0], ![1, 0]] := by
  rw [keysOf, valid_AB]
  simp [ctxA, ctxB]

theorem rel_A : relevanceScores ![1, 0] [ctxA] = [1] := by
  rw [relevanceScores, keys_A]
  simp [dot_e1_e1]

theorem rel_AB : relevanceScores ![1, 0] [ctxA, ctxB] = [1, 1] := by
  rw [relevanceScores, keys_AB]
  simp [dot_e1_e1]

theorem meanGate_half_one : meanGate [1 / 2, 1 / 2] 1 = 1 / 2 := by
  rw [meanGate]
  norm_num

theorem meanGate_half_two : meanGate [1 / 2, 1 / 2] 2 = 1 / 2 := by
  rw [meanGate]
  norm_num

theorem meanGate_mixed_one : meanGate [1 / 2, sigmoid 1] 1 = 1 / 2 := by
  rw [meanGate]
  norm_num

theorem final_E1 : finalScores W0 b0 ![1, 0] [ctxA] = [1 / 2] := by
  rw [finalScores, rel_A, gateList_W0_b0]
  simp only [List.map_cons, List.map_nil, List.length_cons, List.length_nil]
  rw [meanGate]
  norm_num

theorem final_E2 :
    finalScores W0 b0 ![1, 0] [ctxA, ctxB] = [1 / 2, 1 / 2] := by
  rw [finalScores, rel_AB, gateList_W0_b0]
  simp only [List.map_cons, List.map_nil, List.length_cons, List.length_nil]
  rw [meanGate]
  norm_num

theorem final_E3 : finalScores W0 bC2 ![1, 0] [ctxA] = [1 / 2] := by
  rw [finalScores, rel_A, gateList_W0_bC2]
  simp only [List.map_cons, List.map_nil, List.length_cons, List.length_nil]
  rw [meanGate]
  norm_num

theorem argsort_single : argsortAsc [(1 / 2 : ℝ)] = [0] := by
  rw [argsortAsc]
  simp [List.insertionSort]

theorem argsort_pair_tie : argsortAsc [(1 / 2 : ℝ), 1 / 2] = [0, 1] := by
  have hr : ascRel [(1 / 2 : ℝ), 1 / 2] 0 1 := Or.inr ⟨rfl, Nat.zero_le 1⟩
  rw [argsortAsc]
  show List.insertionSort _ [0, 1] = [0, 1]
  simp only [List.insertionSort, List.orderedInsert]
  rw [if_pos hr]

theorem retrieve_E1 : retrieve W0 b0 qEx [ctxA] 1
    = [{ ctxA with relevance_score := some (1 / 2 : ℝ) }] := by
  simp only [retrieve, qEx]
  rw [if_neg (by simp), if_neg (by rw [valid_A]; simp [ctxA])]
  rw [selectedIndices, final_E1, argsort_single, valid_A]
  simp

theorem retrieve_E2 : retrieve W0 b0 qEx [ctxA, ctxB] 2
    = [{ ctxB with relevance_score := some (1 / 2 : ℝ) },
       { ctxA with relevance_score := some (1 / 2 : ℝ) }] := by
  simp only [retrieve, qEx]
  rw [if_neg (by simp), if_neg (by rw [valid_AB]; simp [ctxA])]
  rw [selectedIndices, final_E2, argsort_pair_tie, valid_AB]
  simp

theorem retrieve_E3 : retrieve W0 bC2 qEx [ctxA] 1
    = [{ ctxA with relevance_score := some (1 / 2 : ℝ) }] := by
  simp only [retrieve, qEx]
  rw [if_neg (by simp), if_neg (by rw [valid_A]; simp [ctxA])]
  rw [selectedIndices, final_E3, argsort_single, valid_A]
  simp

/-- C4 counterexample: a candidate whose three scores are all unset, passed
through `retrieve`, comes back with its relevance score set and the other
two still unset — `retrieve` is a core operation that breaks the
all-or-none invariant. -/
theorem retrieve_sets_only_relevance :
    (retrieve W0 b0 qEx [ctxA] 1).map (fun c =>
      (c.relevance_score.isSome, c.superfluous_score.isSome,
        c.noise_score.isSome)) = [(true, false, false)] := by
  rw [retrieve_E1]
  simp [ctxA]

/-- C2 counterexample: with gate bias `[0, 1]` (gate entries `σ(0) = 1/2`
and `σ(1) ≠ 1/2`) and a single candidate, `retrieve` scores the candidate
as `rawDot * 1/2` — the mean of `gates[:1]` — which differs from
`rawDot * mean(entire gate)`: the scalar is not the mean of the whole gate
vector when there are fewer candidates than gate entries. -/
theorem final_score_ignores_gate_tail :
    (retrieve W0 bC2 qEx [ctxA] 1).map (fun c => c.relevance_score)
        = [some (1 / 2 : ℝ)] ∧
    (1 / 2 : ℝ) ≠ dot (![1, 0] : Fin 2 → ℝ) ![1, 0]
        * ((gateList W0 bC2 ![1, 0]).sum
            / ((gateList W0 bC2 ![1, 0]).length : ℝ)) := by
  constructor
  · rw [retrieve_E3]
    rfl
  · rw [gateList_W0_bC2, dot_e1_e1]
    simp only [List.sum_cons, List.sum_nil, List.length_cons,
      List.length_nil]
    intro h
    apply sigmoid_one_ne_half
    push_cast at h
    linarith

/-- Witness for the C2 amended theorem `retrieve_score_eq_dot_mul_truncated_gate_mean` at the
one-candidate input with the all-zero gate parameters. -/
theorem retrieve_score_formula_witness :
    (qEx.embedding = some ![1, 0]) ∧
    ({ ctxA with relevance_score := some (1 / 2 : ℝ) }
        ∈ retrieve W0 b0 qEx [ctxA] 1) ∧
    ∃ e, ({ ctxA with relevance_score := some (1 / 2 : ℝ) }
            : ContextBlock 2).embedding = some e ∧
      ({ ctxA with relevance_score := some (1 / 2 : ℝ) }
            : ContextBlock 2).relevance_score
        = some (dot ![1, 0] e * meanGate (gateList W0 b0 ![1, 0])
            (keysOf [ctxA]).length) :=
  ⟨rfl, by rw [retrieve_E1]; exact List.mem_singleton_self _,
    retrieve_score_eq_dot_mul_truncated_gate_mean W0 b0 qEx [ctxA] 1 ![1, 0]
      rfl _ (by rw [retrieve_E1]; exact List.mem_singleton_self _)⟩

/-- C3 counterexample: two candidates with identical embeddings (hence
equal final scores) and `topK = 2`: `retrieve` returns them in *reverse*
input order — the candidate later in the input list comes first, refuting
earlier-first tie-breaking. -/
theorem retrieve_tie_order_reversed :
    (retrieve W0 b0 qEx [ctxA, ctxB] 2).map (fun c => c.id) = ["b", "a"] ∧
    (retrieve W0 b0 qEx [ctxA, ctxB] 2).map (fun c => c.relevance_score)
      = [some (1 / 2 : ℝ), some (1 / 2 : ℝ)] := by
  rw [retrieve_E2]
  constructor
  · simp [ctxA, ctxB]
  · simp

/-- Witness for the C3 amended theorem `retrieve_topk_sorted_desc` at two candidates and
`topK = 1`. -/
theorem retrieve_topk_sorted_witness :
    (qEx.embedding = some ![1, 0]) ∧
    (1 < (keysOf [ctxA, ctxB]).length) ∧
    ((retrieve W0 b0 qEx [ctxA, ctxB] 1).length = 1 ∧
     (selectedIndices W0 b0 ![1, 0] [ctxA, ctxB] 1).Nodup ∧
     (selectedIndices W0 b0 ![1, 0] [ctxA, ctxB] 1).Sorted (fun i j =>
       (finalScores W0 b0 ![1, 0] [ctxA, ctxB]).getD j 0
         ≤ (finalScores W0 b0 ![1, 0] [ctxA, ctxB]).getD i 0) ∧
     ((finalScores W0 b0 ![1, 0] [ctxA, ctxB]).length ≤ 16 →
       (selectedIndices W0 b0 ![1, 0] [ctxA, ctxB] 1).Sorted (fun i j =>
         (finalScores W0 b0 ![1, 0] [ctxA, ctxB]).getD j 0
             < (finalScores W0 b0 ![1, 0] [ctxA, ctxB]).getD i 0
           ∨ ((finalScores W0 b0 ![1, 0] [ctxA, ctxB]).getD j 0
               = (finalScores W0 b0 ![1, 0] [ctxA, ctxB]).getD i 0
                 ∧ j ≤ i))) ∧
     (retrieve W0 b0 qEx [ctxA, ctxB] 1).map (fun c => c.relevance_score)
       = (selectedIndices W0 b0 ![1, 0] [ctxA, ctxB] 1).map
           (fun i => some ((finalScores W0 b0 ![1, 0]
               [ctxA, ctxB]).getD i 0))) :=
  ⟨rfl, by rw [keys_AB]; simp,
    retrieve_topk_sorted_desc W0 b0 qEx [ctxA, ctxB] 1 ![1, 0] rfl
      (by rw [keys_AB]; simp)⟩

end YSRN
